import Mathlib

/-!
Shallow embedding of the fixed-window rate-limit cache of the ratelimit
repository: the Count-Min Sketch (`src/redis/countmin.go` material), the
hot-key detector, the hot-key micro-batcher, and the pipeline-building and
verdict phases of `fixedRateLimitCacheImpl.DoLimit`.

Machine integers are embedded as `Nat` (for the unsigned `uint32`/`uint64`
values) and `Int` (for Go `int`/`int64`), with wraparound written explicitly
as `% 2^w` where the Go code can wrap.
-/

namespace Ratelimit

/-- Modulus of Go `uint64` arithmetic. -/
def U64 : Nat := 2 ^ 64

/-- Modulus of Go `uint32` arithmetic. -/
def U32 : Nat := 2 ^ 32

/-- Wrapping `uint64` subtraction: `a - b` as Go computes it on `uint64`
operands (two's-complement wraparound), for operands represented as naturals. -/
def wsub (a b : Nat) : Nat := (a + (U64 - b % U64)) % U64

/-! ## Count-Min Sketch (`CountMinSketch` in the source)

The sketch keeps `depth` rows of `width` `uint32` cells.  The per-row hash of
the source is `xxhash(seedBytes(seed_i) ++ key) % width`, with `xxhash` from an
external library; it is embedded abstractly as a function `hashIdx : Nat →
String → Nat` from row index and key to a cell index. -/

structure CountMinSketch where
  width : Nat
  /-- The counter matrix: `depth` rows, each a list of `width` `uint32` cells. -/
  counters : List (List Nat)
  /-- Row-indexed hash family, modelling the external `xxhash` of
  `(seeds[i], key)` reduced `% width`. -/
  hashIdx : Nat → String → Nat

/-- One cell update of `CountMinSketch.Increment`: `newVal := counters[i][idx] +
delta` on `uint32` (wrapping), then `if newVal < counters[i][idx] { newVal =
0xFFFFFFFF }`. -/
def satAdd (old delta : Nat) : Nat :=
  let newVal := (old + delta) % U32
  if newVal < old then U32 - 1 else newVal

/-- The row loop of `CountMinSketch.Increment`: starting at row index `i0`,
update the hashed cell of every row and accumulate the minimum of the new
values, seeded with `0xFFFFFFFF` as in the source. -/
def incRows (hashIdx : Nat → String → Nat) (key : String) (delta : Nat) :
    Nat → List (List Nat) → List (List Nat) × Nat
  | _, [] => ([], U32 - 1)
  | i, row :: rest =>
    let idx := hashIdx i key
    let newVal := satAdd (row.getD idx 0) delta
    let tail := incRows hashIdx key delta (i + 1) rest
    (row.set idx newVal :: tail.1, min newVal tail.2)

/-- `CountMinSketch.Increment`: add `delta` to the hashed cell of every row
(saturating at `0xFFFFFFFF`) and return the updated sketch together with the
minimum of the updated cells. -/
def CountMinSketch.Increment (cms : CountMinSketch) (key : String) (delta : Nat) :
    CountMinSketch × Nat :=
  let r := incRows cms.hashIdx key delta 0 cms.counters
  ({ cms with counters := r.1 }, r.2)

/-- The row loop of `CountMinSketch.Estimate`: minimum over the hashed cell of
every row, seeded with `0xFFFFFFFF`. -/
def estRows (hashIdx : Nat → String → Nat) (key : String) :
    Nat → List (List Nat) → Nat
  | _, [] => U32 - 1
  | i, row :: rest => min (row.getD (hashIdx i key) 0) (estRows hashIdx key (i + 1) rest)

/-- `CountMinSketch.Estimate`: minimum cell value across the rows for `key`. -/
def CountMinSketch.Estimate (cms : CountMinSketch) (key : String) : Nat :=
  estRows cms.hashIdx key 0 cms.counters

/-- `CountMinSketch.Decay` multiplies every cell by a `float64` factor via
`uint32(float64(c) * factor)`; the floating-point attenuation is embedded
abstractly as a per-cell function `g`. -/
def CountMinSketch.DecayWith (cms : CountMinSketch) (g : Nat → Nat) : CountMinSketch :=
  { cms with counters := cms.counters.map (List.map g) }

/-- The depth clamping at the head of `NewCountMinSketch`: `if depth < 2 { depth
= 2 }; if depth > 8 { depth = 8 }`. -/
def clampDepth (depth : Int) : Int :=
  let d1 := if depth < 2 then 2 else depth
  if d1 > 8 then 8 else d1

/-- `NewCountMinSketch(memoryBytes, depth)`: clamp `depth` to `[2, 8]`, then
`width := uint32(memoryBytes / (depth * 4))` (Go truncating `int` division,
then conversion to `uint32`, which wraps modulo `2^32`), raised to the minimum
width `256`; all cells start at zero.  The hash family stands for the seeded
`xxhash` rows of the source. -/
def NewCountMinSketch (memoryBytes : Int) (depth : Int) (hashIdx : Nat → String → Nat) :
    CountMinSketch :=
  let d := clampDepth depth
  let w0 : Nat := (Int.emod (Int.tdiv memoryBytes (d * 4)) (2 ^ 32)).toNat
  let w := if w0 < 256 then 256 else w0
  { width := w
    counters := List.replicate d.toNat (List.replicate w 0)
    hashIdx := hashIdx }

/-! ## Hot-key detector (`HotKeyDetector` in the source)

The Go struct keeps the hot set twice: a map `hotKeys` for O(1) membership and
the LRU-ordered slice `hotKeysList` (oldest first).  All code paths keep the
map equal to the set of list elements, so the embedding keeps the list and
reads membership from it. -/

structure HotKeyDetector where
  cms : CountMinSketch
  hotThreshold : Nat
  /-- LRU-ordered hot keys, oldest first, most recently used at the end. -/
  hotKeysList : List String
  maxHotKeys : Nat

/-- The eviction loop of `promoteToHot`: `for len(hotKeysList) >= maxHotKeys`
drop the LRU-oldest (head) element.  (The constructor guarantees
`maxHotKeys ≥ 1`, so the loop terminates before the list empties.) -/
def evictLoop (maxHotKeys : Nat) : List String → List String
  | [] => []
  | k :: rest =>
    if maxHotKeys ≤ (k :: rest).length then evictLoop maxHotKeys rest else k :: rest

/-- `HotKeyDetector.promoteToHot`: no-op if the key is already hot, otherwise
evict LRU-oldest keys while at capacity and append the key. -/
def HotKeyDetector.promoteToHot (d : HotKeyDetector) (key : String) : HotKeyDetector :=
  if key ∈ d.hotKeysList then d
  else { d with hotKeysList := evictLoop d.maxHotKeys d.hotKeysList ++ [key] }

/-- `HotKeyDetector.touchHotKey`: remove the first occurrence of the key and
append it at the end (most recently used). -/
def HotKeyDetector.touchHotKey (d : HotKeyDetector) (key : String) : HotKeyDetector :=
  { d with hotKeysList := d.hotKeysList.erase key ++ [key] }

/-- `HotKeyDetector.RecordAccessWithDelta` (and `RecordAccess` for `delta = 1`),
without the time-based `maybeDecay` preamble, which is embedded as the separate
`decayCleanup` operation: increment the sketch, touch the key if already hot,
otherwise promote it when the returned count reaches the threshold. -/
def HotKeyDetector.RecordAccessWithDelta (d : HotKeyDetector) (key : String) (delta : Nat) :
    HotKeyDetector × Bool :=
  let r := d.cms.Increment key delta
  let d1 := { d with cms := r.1 }
  if key ∈ d1.hotKeysList then (d1.touchHotKey key, true)
  else if d1.hotThreshold ≤ r.2 then (d1.promoteToHot key, true)
  else (d1, false)

/-- `HotKeyDetector.cleanupColdKeys`: keep exactly the tracked keys whose sketch
estimate is still at or above the threshold. -/
def HotKeyDetector.cleanupColdKeys (d : HotKeyDetector) : HotKeyDetector :=
  { d with hotKeysList := d.hotKeysList.filter (fun k => d.hotThreshold ≤ d.cms.Estimate k) }

/-- Observable operations on the detector: a recorded access, or the decay path
of `maybeDecay` (sketch decay followed by `cleanupColdKeys`). -/
inductive DetectorOp where
  | record (key : String) (delta : Nat)
  | decayCleanup (g : Nat → Nat)

/-- Apply one detector operation. -/
def applyOp (d : HotKeyDetector) : DetectorOp → HotKeyDetector
  | .record key delta => (d.RecordAccessWithDelta key delta).1
  | .decayCleanup g => HotKeyDetector.cleanupColdKeys { d with cms := d.cms.DecayWith g }

/-- Apply a sequence of detector operations in order. -/
def applyOps (d : HotKeyDetector) (ops : List DetectorOp) : HotKeyDetector :=
  ops.foldl applyOp d

/-! ## Hot-key micro-batcher (`HotKeyBatcher` in the source)

`Submit` aggregates increments per key in the `pending` map; `flush` swaps the
map out, executes one pipeline of `INCRBY`/`EXPIRE` pairs, and distributes
per-waiter results (or the pipeline error) on each waiter's one-shot channel.
A waiter's Go identity is its result channel; the embedding identifies a waiter
by the sequence number of its submit. -/

structure pendingWaiter where
  hitsAddend : Nat
  /-- Identifies the waiter's one-shot result channel: the sequence number of
  the submit that created it. -/
  id : Nat
deriving DecidableEq

structure aggregatedIncrement where
  totalHits : Nat
  expirationSeconds : Int
  waiters : List pendingWaiter
deriving DecidableEq

/-- The `pending` map of the batcher, keyed by cache key. -/
def Pending : Type := String → Option aggregatedIncrement

/-- The body of `HotKeyBatcher.Submit` acting on the entry for one key:
create the aggregate on first submit (with the submitted expiration), add the
hits (`uint64` wrap), keep the maximum expiration, append the waiter. -/
def submitOne (cur : Option aggregatedIncrement) (hitsAddend : Nat)
    (expirationSeconds : Int) (waiterId : Nat) : aggregatedIncrement :=
  let agg : aggregatedIncrement := match cur with
    | none => { totalHits := 0, expirationSeconds := expirationSeconds, waiters := [] }
    | some a => a
  { totalHits := (agg.totalHits + hitsAddend) % U64
    expirationSeconds :=
      if expirationSeconds > agg.expirationSeconds then expirationSeconds
      else agg.expirationSeconds
    waiters := agg.waiters ++ [⟨hitsAddend, waiterId⟩] }

/-- `HotKeyBatcher.Submit`: update the pending entry for `key`. -/
def Submit (pending : Pending) (key : String) (hitsAddend : Nat)
    (expirationSeconds : Int) (waiterId : Nat) : Pending :=
  fun k => if k = key then some (submitOne (pending key) hitsAddend expirationSeconds waiterId)
           else pending k

/-- A sequence of `Submit` calls `(key, hitsAddend, expirationSeconds)`,
numbering the waiters from `i` onward. -/
def runSubmitsFrom (i : Nat) (p : Pending) : List (String × Nat × Int) → Pending
  | [] => p
  | (k, h, e) :: rest => runSubmitsFrom (i + 1) (Submit p k h e i) rest

/-- All submits between two flushes, applied to the empty (just-flushed)
pending map. -/
def runSubmits (s : List (String × Nat × Int)) : Pending :=
  runSubmitsFrom 0 (fun _ => none) s

/-- The submits of a sequence that target key `k`, tagged with their sequence
numbers starting from `i`: entries `(waiterId, hitsAddend, expirationSeconds)`. -/
def submitsFor (k : String) : Nat → List (String × Nat × Int) → List (Nat × Nat × Int)
  | _, [] => []
  | i, (k1, h, e) :: rest =>
    if k1 = k then (i, h, e) :: submitsFor k (i + 1) rest else submitsFor k (i + 1) rest

/-- The reverse walk of `HotKeyBatcher.flush` over one key's waiter addends:
returns the per-waiter results and the final `runningCount`.  Walking the list
head-first in the recursion corresponds to the source's loop from the last
index down to the first: the head's result is the running value left after all
later waiters were processed. -/
def flushWalk : List Nat → Nat → List Nat × Nat
  | [], running => ([], running)
  | h :: rest, running =>
    let tail := flushWalk rest running
    (tail.2 :: tail.1, wsub tail.2 h)

/-- Per-waiter results of a flush for one key: waiter addends in submit order,
seeded with the `finalCount` returned by the store for the batched `INCRBY`. -/
def flushResults (ws : List Nat) (finalCount : Nat) : List Nat :=
  (flushWalk ws finalCount).1

/-- The result value delivered on a waiter's channel (`HotKeyBatcherResult`):
Go zero values fill the field the sender does not set. -/
structure HotKeyBatcherResult where
  value : Nat
  err : Option String
deriving DecidableEq

/-- One store command appended by `flush`: `INCRBY key totalHits` or
`EXPIRE key expirationSeconds`. -/
structure FlushCmd where
  op : String
  key : String
  arg : Int
deriving DecidableEq

/-- Outcome of one `flush` call: the pipelines handed to `Client.PipeDo` (in
order) and the results delivered on waiter channels, tagged by waiter id. -/
structure FlushOutcome where
  executedPipelines : List (List FlushCmd)
  deliveries : List (Nat × HotKeyBatcherResult)

/-- `HotKeyBatcher.flush`: with `toFlush` the drained pending entries (in map
iteration order), `execErr` the error `Client.PipeDo` returns for the built
pipeline, and `finalCount` the store's post-increment counter value per key.
An empty batch returns without executing anything.  Otherwise one pipeline of
`INCRBY`/`EXPIRE` pairs is executed once; on error every waiter of every key
receives that error, and on success waiter `i` of a key receives the reverse
walk result for its position. -/
def flush (toFlush : List (String × aggregatedIncrement)) (execErr : Option String)
    (finalCount : String → Nat) : FlushOutcome :=
  if toFlush = [] then { executedPipelines := [], deliveries := [] }
  else
    let pipeline := toFlush.foldl
      (fun p ka => p ++ [⟨"INCRBY", ka.1, (ka.2.totalHits : Int)⟩,
                         ⟨"EXPIRE", ka.1, ka.2.expirationSeconds⟩]) []
    let deliveries := toFlush.flatMap (fun ka =>
      match execErr with
      | some e => ka.2.waiters.map (fun w => (w.id, ⟨0, some e⟩))
      | none =>
        (ka.2.waiters.zip
          (flushResults (ka.2.waiters.map pendingWaiter.hitsAddend) (finalCount ka.1))).map
          (fun wr => (wr.1.id, ⟨wr.2, none⟩)))
    { executedPipelines := [pipeline], deliveries := deliveries }

/-! ## The increment and pre-read phases of `fixedRateLimitCacheImpl.DoLimit`

The embedding covers the key-skipping, effective-hits, hot-key routing and
slot-grouped pipeline construction of `DoLimit` (the cluster-aware variant,
which groups `pipelines`, `perSecondPipelines`, `pipelinesToGet` and
`perSecondPipelinesToGet` in maps from slot).  The surrounding collaborators
are embedded as request-level inputs: the generated cache keys, the
per-descriptor hits, the local-cache over-limit flags and the near-limit flags
computed by the pre-read, the detector's hot decision per index, and the store
responses. -/

/-- `fixedRateLimitCacheImpl.getHitsAddend`. -/
def getHitsAddend (stopCacheKeyIncrementWhenOverlimit : Bool) (hitsAddend : Nat)
    (isCacheKeyOverlimit isCacheKeyNearlimit isNearLimt : Bool) : Nat :=
  if !stopCacheKeyIncrementWhenOverlimit then hitsAddend
  else if isCacheKeyOverlimit then 0
  else if !isCacheKeyNearlimit then hitsAddend
  else if isNearLimt then hitsAddend
  else 0

/-- A cache key as produced by `GenerateCacheKeys`: the key string (empty for
unlimited or unmatched descriptors) and whether it belongs to a SECOND-unit
limit. -/
structure CacheKey where
  Key : String
  PerSecond : Bool
deriving DecidableEq

/-- One store command appended to a `DoLimit` pipeline.  `resultIdx` is the
descriptor index whose response slot the command's reply is bound to
(`&results[i]` for `INCRBY`, `&currentCount[i]` for `GET`; `none` for
`EXPIRE`). -/
structure PipeCmd where
  op : String
  key : String
  arg : Int
  resultIdx : Option Nat
deriving DecidableEq

/-- A Go `map[uint16]Pipeline`, with the empty pipeline as default value. -/
def SlotMap : Type := Nat → List PipeCmd

/-- Fetch-append-store of a pipeline in a slot map: `pipeline := m[slot];
append; m[slot] = pipeline`. -/
def appendAt (m : SlotMap) (slot : Nat) (cmds : List PipeCmd) : SlotMap :=
  fun s => if s = slot then m s ++ cmds else m s

/-- Pointwise update of the `results` array. -/
def setAt (f : Nat → Nat) (i v : Nat) : Nat → Nat :=
  fun j => if j = i then v else f j

/-- Request-level inputs of the `DoLimit` pipeline-building loops. -/
structure DoLimitEnv where
  /-- `client.GetSlot`. -/
  getSlot : String → Nat
  /-- `perSecondClient.GetSlot`. -/
  psGetSlot : String → Nat
  /-- Whether `perSecondClient` is non-nil. -/
  hasPerSecondClient : Bool
  /-- Whether `hotKeyDetector` and `hotKeyBatcher` are non-nil. -/
  hotEnabled : Bool
  /-- Whether `hotKeyDetector` and `perSecondBatcher` are non-nil. -/
  psHotEnabled : Bool
  /-- Outcome of `hotKeyDetector.RecordAccess(cacheKey.Key)` when reached for
  descriptor `i`. -/
  hot : Nat → Bool
  /-- `GenerateCacheKeys` output, one entry per descriptor. -/
  cacheKeys : List CacheKey
  /-- `utils.GetHitsAddends(request)`. -/
  hitsAddends : List Nat
  /-- Local-cache over-limit flags from the first loop of `DoLimit`. -/
  overlimitIndexes : List Bool
  /-- Near-limit flags from the pre-read phase. -/
  nearlimitIndexes : List Bool
  /-- The `stopCacheKeyIncrementWhenOverlimit` setting. -/
  stop : Bool
  isCacheKeyOverlimit : Bool
  isCacheKeyNearlimit : Bool
  /-- Expiration seconds (unit divider plus jitter) chosen for descriptor `i`. -/
  expirationSeconds : Nat → Int

/-- The cache key of descriptor `i` (`cacheKeys[i]`). -/
def DoLimitEnv.keyAt (env : DoLimitEnv) (i : Nat) : CacheKey :=
  env.cacheKeys.getD i ⟨"", false⟩

/-- State built by the increment loop of `DoLimit`: the two slot-grouped
pipeline maps, the indices submitted to a hot-key batcher, and the `results`
array as it stands after pipeline execution and batcher joins (each `INCRBY`
reply and each batcher value is written to the index it was bound to; `store i`
abstracts the value the store or batcher delivers for index `i`). -/
structure IncState where
  pipelines : SlotMap
  perSecondPipelines : SlotMap
  hotKeyIdxs : List Nat
  results : Nat → Nat

/-- One iteration of the increment loop of `DoLimit` for descriptor `i`:
skip empty keys and locally over-limit keys, compute the effective hits via
`getHitsAddend`, then route to the per-second or main store and within each to
the hot-key batcher or the slot-grouped pipeline. -/
def incStep (env : DoLimitEnv) (store : Nat → Nat) (st : IncState) (i : Nat) : IncState :=
  let ck := env.keyAt i
  if ck.Key = "" ∨ env.overlimitIndexes.getD i false then st
  else
    let h := getHitsAddend env.stop (env.hitsAddends.getD i 0)
      env.isCacheKeyOverlimit env.isCacheKeyNearlimit (env.nearlimitIndexes.getD i false)
    if env.hasPerSecondClient && ck.PerSecond then
      if env.psHotEnabled && env.hot i then
        { st with hotKeyIdxs := st.hotKeyIdxs ++ [i], results := setAt st.results i (store i) }
      else
        { st with
          perSecondPipelines := appendAt st.perSecondPipelines (env.psGetSlot ck.Key)
            [⟨"INCRBY", ck.Key, (h : Int), some i⟩,
             ⟨"EXPIRE", ck.Key, env.expirationSeconds i, none⟩]
          results := setAt st.results i (store i) }
    else
      if env.hotEnabled && env.hot i then
        { st with hotKeyIdxs := st.hotKeyIdxs ++ [i], results := setAt st.results i (store i) }
      else
        { st with
          pipelines := appendAt st.pipelines (env.getSlot ck.Key)
            [⟨"INCRBY", ck.Key, (h : Int), some i⟩,
             ⟨"EXPIRE", ck.Key, env.expirationSeconds i, none⟩]
          results := setAt st.results i (store i) }

/-- The increment loop of `DoLimit` over all descriptors, starting from empty
pipeline maps and a zero-initialized `results` array. -/
def buildIncrementPhase (env : DoLimitEnv) (store : Nat → Nat) : IncState :=
  (List.range env.cacheKeys.length).foldl (incStep env store)
    ⟨fun _ => [], fun _ => [], [], fun _ => 0⟩

/-- One iteration of the pre-read `GET` loop of `DoLimit` for descriptor `i`:
skip empty keys, then group a `GET` (bound to `currentCount[i]`) by slot in the
per-second or main read map. -/
def getStep (env : DoLimitEnv) (st : SlotMap × SlotMap) (i : Nat) : SlotMap × SlotMap :=
  let ck := env.keyAt i
  if ck.Key = "" then st
  else if env.hasPerSecondClient && ck.PerSecond then
    (st.1, appendAt st.2 (env.psGetSlot ck.Key) [⟨"GET", ck.Key, 0, some i⟩])
  else
    (appendAt st.1 (env.getSlot ck.Key) [⟨"GET", ck.Key, 0, some i⟩], st.2)

/-- The pre-read phase of `DoLimit`: only entered when the policy is enabled
and no key is over limit in the local cache; builds `pipelinesToGet` and
`perSecondPipelinesToGet` grouped by slot. -/
def buildGetPhase (env : DoLimitEnv) : SlotMap × SlotMap :=
  if env.stop && !env.isCacheKeyOverlimit then
    (List.range env.cacheKeys.length).foldl (getStep env) (fun _ => [], fun _ => [])
  else (fun _ => [], fun _ => [])

/-- The verdict-phase computation `limitBeforeIncrease := results[i] -
hitsAddends[i]` on `uint64`. -/
def limitBeforeIncrease (results : Nat → Nat) (hitsAddends : List Nat) (i : Nat) : Nat :=
  wsub (results i) (hitsAddends.getD i 0)

/-! ## Derived notions used to state the claims -/

/-- Forward per-waiter totals: element `i` is `v` plus the sum of the first
`i + 1` addends, the counter value each waiter would observe if only the
increments up to and including its own had been applied to initial value `v`. -/
def prefixTotals (v : Nat) : List Nat → List Nat
  | [] => []
  | a :: rest => (v + a) :: prefixTotals (v + a) rest

/-- Replay of `submitOne` over the numbered submits that target one key,
starting from the key's current pending entry. -/
def aggOf : Option aggregatedIncrement → List (Nat × Nat × Int) → Option aggregatedIncrement
  | cur, [] => cur
  | cur, (i, h, e) :: rest => aggOf (some (submitOne cur h e i)) rest

/-- A sequence of `Increment` calls applied to a sketch, discarding the
returned estimates. -/
def runIncrements (cms : CountMinSketch) : List (String × Nat) → CountMinSketch
  | [] => cms
  | (k, d) :: rest => runIncrements (cms.Increment k d).1 rest

/-- The exact number of hits recorded for `key` by a sequence of
`Increment (k, d)` calls. -/
def trueCount (key : String) (ops : List (String × Nat)) : Nat :=
  ((ops.filter (fun p => p.1 = key)).map Prod.snd).sum

/-- Well-formedness of a sketch: every row has `width` cells, every cell is a
`uint32` value, and the hash family lands inside the rows (the source hash is
reduced `% width`). -/
def WF (cms : CountMinSketch) : Prop :=
  (∀ j, j < cms.counters.length → (cms.counters.getD j []).length = cms.width) ∧
  (∀ j j2, (cms.counters.getD j []).getD j2 0 < U32) ∧
  (∀ i k, cms.hashIdx i k < cms.width)

/-- Slot consistency of a slot-grouped pipeline map: every command grouped
under slot `s` is for a key that hashes to `s`. -/
def SlotOk (g : String → Nat) (m : SlotMap) : Prop :=
  ∀ s c, c ∈ m s → g c.key = s

/-! ## General helper lemmas -/

lemma U64_pos : 0 < U64 := by unfold U64; positivity

lemma U32_pos : 0 < U32 := by unfold U32; positivity

lemma U32_lt_U64 : U32 < U64 := by unfold U32 U64; norm_num

lemma foldl_invariant {α σ : Type} (step : σ → α → σ) (P : σ → Prop)
    (hstep : ∀ st a, P st → P (step st a)) :
    ∀ (l : List α) (st : σ), P st → P (l.foldl step st) := by
  intro l
  induction l with
  | nil => intro st h; exact h
  | cons a rest ih => intro st h; exact ih (step st a) (hstep st a h)

lemma wsub_cancel (v a : Nat) (hv : v < U64) (ha : a < U64) : wsub (v + a) a = v := by
  unfold wsub
  rw [Nat.mod_eq_of_lt ha]
  have h1 : v + a + (U64 - a) = v + U64 := by omega
  rw [h1, Nat.add_mod_right, Nat.mod_eq_of_lt hv]

lemma wsub_zero (h : Nat) (hlt : h < U64) (h0 : 0 < h) : wsub 0 h = U64 - h := by
  unfold wsub
  rw [Nat.mod_eq_of_lt hlt, Nat.zero_add, Nat.mod_eq_of_lt (by omega)]

/-! ## Lemmas on the flush reverse walk (C1) -/

lemma flushWalk_exact :
    ∀ (ws : List Nat) (v : Nat), v + ws.sum < U64 →
      flushWalk ws (v + ws.sum) = (prefixTotals v ws, v) := by
  intro ws
  induction ws with
  | nil => intro v hv; simp [flushWalk, prefixTotals]
  | cons a rest ih =>
    intro v hv
    have hsum : (a :: rest).sum = a + rest.sum := by simp
    have hlt : (v + a) + rest.sum < U64 := by rw [hsum] at hv; omega
    have harg : v + (a :: rest).sum = (v + a) + rest.sum := by rw [hsum]; omega
    rw [harg]
    have ihr := ih (v + a) hlt
    have hva : v < U64 := by omega
    have ha : a < U64 := by omega
    simp only [flushWalk, ihr, prefixTotals]
    exact Prod.ext rfl (wsub_cancel v a hva ha)

lemma prefixTotals_getD :
    ∀ (ws : List Nat) (v i : Nat), i < ws.length →
      (prefixTotals v ws).getD i 0 = v + (ws.take (i + 1)).sum := by
  intro ws
  induction ws with
  | nil => intro v i hi; simp at hi
  | cons a rest ih =>
    intro v i hi
    cases i with
    | zero => simp [prefixTotals]
    | succ j =>
      have hj : j < rest.length := by simpa using hi
      have := ih (v + a) j hj
      simp only [prefixTotals, List.getD_cons_succ, this, List.take_succ_cons, List.sum_cons]
      omega

/-- C1: for a batch flush of one key whose waiters have addends `ws` (in submit
order) and whose store increment returned `finalCount`, the reverse walk
delivers to waiter `i` the value `finalCount` minus the addends of the waiters
after it; when the counter held `v` before the flush (so that
`finalCount = v + Σ ws` without `uint64` overflow), waiter `i` receives `v`
plus the addends of the waiters up to and including itself. -/
theorem flush_perWaiter_results (ws : List Nat) (v finalCount : Nat)
    (hfc : finalCount = v + ws.sum) (hlt : v + ws.sum < U64) :
    ∀ i, i < ws.length →
      (flushResults ws finalCount).getD i 0 = finalCount - (ws.drop (i + 1)).sum ∧
      (flushResults ws finalCount).getD i 0 = v + (ws.take (i + 1)).sum := by
  intro i hi
  subst hfc
  have h1 : flushResults ws (v + ws.sum) = prefixTotals v ws := by
    unfold flushResults
    rw [flushWalk_exact ws v hlt]
  rw [h1, prefixTotals_getD ws v i hi]
  have hsplit : (ws.take (i + 1)).sum + (ws.drop (i + 1)).sum = ws.sum := by
    have := congrArg List.sum (List.take_append_drop (i + 1) ws)
    rwa [List.sum_append] at this
  exact ⟨by omega, rfl⟩

/-- Witness for C1 at the example of the source comment: initial count 50,
addends 2, 3, 1, final count 56; the middle waiter receives 55. -/
theorem flush_perWaiter_results_witness :
    (flushResults [2, 3, 1] 56).getD 1 0 = 56 - ([2, 3, 1].drop 2).sum ∧
    (flushResults [2, 3, 1] 56).getD 1 0 = 50 + ([2, 3, 1].take 2).sum :=
  flush_perWaiter_results [2, 3, 1] 50 56 (by decide) (by decide) 1 (by decide)

/-- C2: the effective-hits truth table of `getHitsAddend`: the full addend when
the stop-increment-when-overlimit policy is disabled; zero when some key is
over limit in the local cache; the full addend when no key is over limit and
no key is near limit; otherwise the addend exactly when this key is near
limit. -/
theorem getHitsAddend_truthTable :
    ∀ (h : Nat) (o n k : Bool),
      getHitsAddend false h o n k = h ∧
      getHitsAddend true h true n k = 0 ∧
      getHitsAddend true h false false k = h ∧
      getHitsAddend true h false true k = (if k then h else 0) := by
  intro h o n k
  cases o <;> cases n <;> cases k <;> simp [getHitsAddend]

/-! ## Lemmas on Submit aggregation (C7) -/

lemma runSubmitsFrom_eq :
    ∀ (s : List (String × Nat × Int)) (i : Nat) (p : Pending) (k : String),
      runSubmitsFrom i p s k = aggOf (p k) (submitsFor k i s) := by
  intro s
  induction s with
  | nil => intro i p k; rfl
  | cons hd rest ih =>
    intro i p k
    obtain ⟨k1, h, e⟩ := hd
    show runSubmitsFrom (i + 1) (Submit p k1 h e i) rest k = _
    rw [ih]
    by_cases hk : k1 = k
    · subst hk
      simp [Submit, submitsFor, aggOf]
    · have hk2 : ¬(k = k1) := fun hc => hk hc.symm
      simp [Submit, submitsFor, hk, hk2]

lemma foldl_max_mem : ∀ (l : List Int) (a : Int), l.foldl max a = a ∨ l.foldl max a ∈ l := by
  intro l
  induction l with
  | nil => intro a; left; rfl
  | cons b rest ih =>
    intro a
    rcases ih (max a b) with h | h
    · rcases max_choice a b with hm | hm
      · left; rw [List.foldl_cons, h, hm]
      · right; rw [List.foldl_cons, h, hm]; exact List.mem_cons_self b rest
    · right; exact List.mem_cons_of_mem b (by rw [List.foldl_cons]; exact h)

lemma le_foldl_max :
    ∀ (l : List Int) (a : Int), a ≤ l.foldl max a ∧ ∀ t ∈ l, t ≤ l.foldl max a := by
  intro l
  induction l with
  | nil => intro a; exact ⟨le_refl a, by simp⟩
  | cons b rest ih =>
    intro a
    have h1 : max a b ≤ rest.foldl max (max a b) := (ih (max a b)).1
    have h2 := (ih (max a b)).2
    constructor
    · rw [List.foldl_cons]
      exact le_trans (le_max_left a b) h1
    · intro t ht
      rw [List.foldl_cons]
      rcases List.mem_cons.mp ht with h | h
      · rw [h]
        exact le_trans (le_max_right a b) h1
      · exact h2 t h

lemma aggOf_some :
    ∀ (l : List (Nat × Nat × Int)) (a : aggregatedIncrement), a.totalHits < U64 →
      ∃ b, aggOf (some a) l = some b ∧
        b.waiters = a.waiters ++ l.map (fun x => ⟨x.2.1, x.1⟩) ∧
        b.totalHits = (a.totalHits + (l.map (fun x => x.2.1)).sum) % U64 ∧
        b.expirationSeconds = (l.map (fun x => x.2.2)).foldl max a.expirationSeconds := by
  intro l
  induction l with
  | nil =>
    intro a ha
    exact ⟨a, rfl, by simp, by simpa using (Nat.mod_eq_of_lt ha).symm, rfl⟩
  | cons hd rest ih =>
    intro a ha
    obtain ⟨i, h, e⟩ := hd
    have hstep : submitOne (some a) h e i =
        { totalHits := (a.totalHits + h) % U64
          expirationSeconds := max a.expirationSeconds e
          waiters := a.waiters ++ [⟨h, i⟩] } := by
      unfold submitOne
      rcases lt_or_ge a.expirationSeconds e with hlt | hge
      · simp [hlt, max_eq_right (le_of_lt hlt)]
      · have : ¬(e > a.expirationSeconds) := not_lt.mpr hge
        simp [this, max_eq_left hge]
    have hmod : (a.totalHits + h) % U64 < U64 := Nat.mod_lt _ U64_pos
    obtain ⟨b, hb, hw, hth, hexp⟩ :=
      ih { totalHits := (a.totalHits + h) % U64
           expirationSeconds := max a.expirationSeconds e
           waiters := a.waiters ++ [⟨h, i⟩] } hmod
    refine ⟨b, ?_, ?_, ?_, ?_⟩
    · show aggOf (some (submitOne (some a) h e i)) rest = some b
      rw [hstep]; exact hb
    · rw [hw]; simp
    · rw [hth]; simp only [Nat.mod_add_mod, List.map_cons, List.sum_cons]
      ring_nf
    · rw [hexp]; simp [List.foldl_cons]

/-- C7: after any sequence of `Submit` calls applied to the just-flushed
(empty) pending map, every pending entry has `totalHits` equal to the `uint64`
sum of its waiters' addends, its waiter list is exactly the submits for that
key in submit order, and its recorded expiration is the maximum
`expirationSeconds` over those submits. -/
theorem Submit_aggregation (s : List (String × Nat × Int)) (k : String)
    (agg : aggregatedIncrement) (hagg : runSubmits s k = some agg) :
    agg.waiters = (submitsFor k 0 s).map (fun x => ⟨x.2.1, x.1⟩) ∧
    agg.totalHits = ((agg.waiters.map pendingWaiter.hitsAddend).sum) % U64 ∧
    agg.expirationSeconds ∈ (submitsFor k 0 s).map (fun x => x.2.2) ∧
    ∀ t ∈ (submitsFor k 0 s).map (fun x => x.2.2), t ≤ agg.expirationSeconds := by
  unfold runSubmits at hagg
  rw [runSubmitsFrom_eq] at hagg
  rcases hL : submitsFor k 0 s with _ | ⟨⟨i, h, e⟩, rest⟩
  · rw [hL] at hagg; exact absurd hagg (by simp [aggOf])
  · rw [hL] at hagg
    have hone : submitOne none h e i =
        { totalHits := (0 + h) % U64, expirationSeconds := e, waiters := [⟨h, i⟩] } := by
      unfold submitOne
      simp
    have hagg2 : aggOf (some (submitOne none h e i)) rest = some agg := hagg
    rw [hone] at hagg2
    obtain ⟨b, hb, hw, hth, hexp⟩ :=
      aggOf_some rest { totalHits := (0 + h) % U64, expirationSeconds := e, waiters := [⟨h, i⟩] }
        (Nat.mod_lt _ U64_pos)
    have hba : b = agg := by rw [hb] at hagg2; exact Option.some.inj hagg2
    subst hba
    have hwaiters : b.waiters =
        ((⟨i, h, e⟩ :: rest : List (Nat × Nat × Int)).map (fun x => (⟨x.2.1, x.1⟩ : pendingWaiter))) := by
      rw [hw]; simp
    have hfun : (pendingWaiter.hitsAddend ∘
        (fun x : Nat × Nat × Int => (⟨x.2.1, x.1⟩ : pendingWaiter))) =
        fun x : Nat × Nat × Int => x.2.1 := rfl
    refine ⟨hwaiters, ?_, ?_, ?_⟩
    · rw [hth, hwaiters, List.map_map, hfun]
      simp only [List.map_cons, List.sum_cons, Nat.mod_add_mod, Nat.zero_add]
    · rw [hexp]
      simp only [List.map_cons]
      rcases foldl_max_mem (rest.map (fun x => x.2.2)) e with hm | hm
      · rw [hm]; exact List.mem_cons_self _ _
      · exact List.mem_cons_of_mem _ hm
    · intro t ht
      rw [hexp]
      simp only [List.map_cons] at ht
      rcases List.mem_cons.mp ht with h1 | h1
      · rw [h1]; exact (le_foldl_max _ e).1
      · exact (le_foldl_max _ e).2 t h1

/-- Witness for C7: three submits, two of them for key `a`; the pending entry
for `a` aggregates addends 2 and 3, keeps the waiters in submit order, and
records the larger of the two expirations. -/
theorem Submit_aggregation_witness :
    (⟨5, 5, [⟨2, 0⟩, ⟨3, 2⟩]⟩ : aggregatedIncrement).waiters =
      (submitsFor "a" 0 [("a", 2, 5), ("b", 7, 1), ("a", 3, 4)]).map (fun x => ⟨x.2.1, x.1⟩) ∧
    (⟨5, 5, [⟨2, 0⟩, ⟨3, 2⟩]⟩ : aggregatedIncrement).totalHits =
      ((([⟨2, 0⟩, ⟨3, 2⟩] : List pendingWaiter).map pendingWaiter.hitsAddend).sum) % U64 ∧
    (⟨5, 5, [⟨2, 0⟩, ⟨3, 2⟩]⟩ : aggregatedIncrement).expirationSeconds ∈
      (submitsFor "a" 0 [("a", 2, 5), ("b", 7, 1), ("a", 3, 4)]).map (fun x => x.2.2) ∧
    ∀ t ∈ (submitsFor "a" 0 [("a", 2, 5), ("b", 7, 1), ("a", 3, 4)]).map (fun x => x.2.2),
      t ≤ (⟨5, 5, [⟨2, 0⟩, ⟨3, 2⟩]⟩ : aggregatedIncrement).expirationSeconds :=
  Submit_aggregation [("a", 2, 5), ("b", 7, 1), ("a", 3, 4)] "a" ⟨5, 5, [⟨2, 0⟩, ⟨3, 2⟩]⟩
    (by decide)

/-! ## Flush error policy (C6) -/

/-- C6: when the flush pipeline execution fails with error `e`, every waiter of
every key in the flushed batch is delivered exactly `{Err: e}` (no waiter
receives a value), and the batcher executes at most one pipeline — it never
retries. -/
theorem flush_error_policy (toFlush : List (String × aggregatedIncrement)) (e : String)
    (finalCount : String → Nat) :
    (∀ d ∈ (flush toFlush (some e) finalCount).deliveries,
        d.2 = (⟨0, some e⟩ : HotKeyBatcherResult)) ∧
    (∀ ka ∈ toFlush, ∀ w ∈ ka.2.waiters,
        (w.id, (⟨0, some e⟩ : HotKeyBatcherResult)) ∈
          (flush toFlush (some e) finalCount).deliveries) ∧
    (flush toFlush (some e) finalCount).executedPipelines.length ≤ 1 := by
  by_cases h0 : toFlush = []
  · subst h0
    refine ⟨?_, ?_, ?_⟩ <;> simp [flush]
  · refine ⟨?_, ?_, ?_⟩
    · intro d hd
      simp only [flush, if_neg h0, List.mem_flatMap] at hd
      obtain ⟨ka, _, hmem⟩ := hd
      simp only [List.mem_map] at hmem
      obtain ⟨w, _, hw⟩ := hmem
      rw [← hw]
    · intro ka hka w hw
      simp only [flush, if_neg h0, List.mem_flatMap]
      exact ⟨ka, hka, List.mem_map_of_mem _ hw⟩
    · simp [flush, if_neg h0]

/-- Witness for C6: one key with two waiters; both receive the error. -/
theorem flush_error_policy_witness :
    ((0 : Nat), (⟨0, some "boom"⟩ : HotKeyBatcherResult)) ∈
      (flush [("k", ⟨5, 9, [⟨2, 0⟩, ⟨3, 1⟩]⟩)] (some "boom") (fun _ => 0)).deliveries :=
  (flush_error_policy [("k", ⟨5, 9, [⟨2, 0⟩, ⟨3, 1⟩]⟩)] "boom" (fun _ => 0)).2.1
    ("k", ⟨5, 9, [⟨2, 0⟩, ⟨3, 1⟩]⟩) (by decide) ⟨2, 0⟩ (by decide)

/-! ## Skipped descriptors keep a zero result and the verdict subtraction wraps (C10) -/

lemma incStep_keeps_zero (env : DoLimitEnv) (store : Nat → Nat) (i : Nat)
    (hskip : (env.keyAt i).Key = "" ∨ env.overlimitIndexes.getD i false = true) :
    ∀ (st : IncState) (j : Nat), st.results i = 0 → (incStep env store st j).results i = 0 := by
  intro st j hz
  unfold incStep
  by_cases hj : (env.keyAt j).Key = "" ∨ env.overlimitIndexes.getD j false
  · simp only [if_pos hj]; exact hz
  · have hij : j ≠ i := by
      intro hji
      subst hji
      rcases hskip with h | h
      · exact hj (Or.inl h)
      · exact hj (Or.inr h)
    simp only [if_neg hj]
    split
    · split
      · simpa [setAt, hij.symm] using hz
      · simpa [setAt, hij.symm] using hz
    · split
      · simpa [setAt, hij.symm] using hz
      · simpa [setAt, hij.symm] using hz

/-- C10: a descriptor skipped by the increment loop (empty cache key, or
flagged over limit by the local cache) keeps `results[i] = 0`; the verdict
phase then computes `limitBeforeIncrease = results[i] - hitsAddends[i]` on
`uint64`, which for a positive addend wraps to `2^64 - hitsAddends[i]` — a
value within `2^32` of `2^64` rather than `0` for the `uint32`-sized addends
the request can carry. -/
theorem skipped_result_wraps (env : DoLimitEnv) (store : Nat → Nat) (i : Nat)
    (hskip : (env.keyAt i).Key = "" ∨ env.overlimitIndexes.getD i false = true) :
    (buildIncrementPhase env store).results i = 0 ∧
    (0 < env.hitsAddends.getD i 0 → env.hitsAddends.getD i 0 ≤ U32 →
      limitBeforeIncrease (buildIncrementPhase env store).results env.hitsAddends i =
        U64 - env.hitsAddends.getD i 0 ∧
      U64 - U32 ≤ limitBeforeIncrease (buildIncrementPhase env store).results env.hitsAddends i) := by
  have hz : (buildIncrementPhase env store).results i = 0 := by
    unfold buildIncrementPhase
    exact foldl_invariant (incStep env store) (fun st => st.results i = 0)
      (incStep_keeps_zero env store i hskip) (List.range env.cacheKeys.length) _ rfl
  refine ⟨hz, ?_⟩
  intro hpos hle
  have hlt : env.hitsAddends.getD i 0 < U64 := lt_of_le_of_lt hle U32_lt_U64
  have hwrap : limitBeforeIncrease (buildIncrementPhase env store).results env.hitsAddends i =
      U64 - env.hitsAddends.getD i 0 := by
    unfold limitBeforeIncrease
    rw [hz]
    exact wsub_zero _ hlt hpos
  exact ⟨hwrap, by rw [hwrap]; omega⟩

/-- Witness for C10: a single descriptor with an empty cache key and addend 1;
the verdict-phase subtraction yields `2^64 - 1`. -/
theorem skipped_result_wraps_witness :
    (buildIncrementPhase
        ⟨fun _ => 0, fun _ => 0, false, false, false, fun _ => false,
         [⟨"", false⟩], [1], [false], [false], false, false, false, fun _ => 1⟩
        (fun _ => 7)).results 0 = 0 ∧
    limitBeforeIncrease
        (buildIncrementPhase
          ⟨fun _ => 0, fun _ => 0, false, false, false, fun _ => false,
           [⟨"", false⟩], [1], [false], [false], false, false, false, fun _ => 1⟩
          (fun _ => 7)).results [1] 0 = U64 - 1 := by
  have h := skipped_result_wraps
    ⟨fun _ => 0, fun _ => 0, false, false, false, fun _ => false,
     [⟨"", false⟩], [1], [false], [false], false, false, false, fun _ => 1⟩
    (fun _ => 7) 0 (Or.inl rfl)
  exact ⟨h.1, (h.2 (by decide) (by decide)).1⟩

/-! ## Slot consistency of the DoLimit pipelines (C5) -/

lemma appendAt_slotOk (g : String → Nat) (m : SlotMap) (slot : Nat) (cmds : List PipeCmd)
    (hm : SlotOk g m) (hc : ∀ c ∈ cmds, g c.key = slot) : SlotOk g (appendAt m slot cmds) := by
  intro s c hcm
  unfold appendAt at hcm
  by_cases hs : s = slot
  · rw [if_pos hs] at hcm
    rcases List.mem_append.mp hcm with h | h
    · exact hm s c h
    · rw [hc c h, hs]
  · rw [if_neg hs] at hcm
    exact hm s c hcm

lemma pairCmds_key (g : String → Nat) (k o1 o2 : String) (a1 a2 : Int) (r1 r2 : Option Nat) :
    ∀ c ∈ [(⟨o1, k, a1, r1⟩ : PipeCmd), ⟨o2, k, a2, r2⟩], g c.key = g k := by
  intro c hc
  rcases List.mem_cons.mp hc with rfl | hc
  · rfl
  · rcases List.mem_cons.mp hc with rfl | hc
    · rfl
    · exact absurd hc (List.not_mem_nil c)

lemma singleCmd_key (g : String → Nat) (k o1 : String) (a1 : Int) (r1 : Option Nat) :
    ∀ c ∈ [(⟨o1, k, a1, r1⟩ : PipeCmd)], g c.key = g k := by
  intro c hc
  rcases List.mem_cons.mp hc with rfl | hc
  · rfl
  · exact absurd hc (List.not_mem_nil c)

lemma incStep_slotOk (env : DoLimitEnv) (store : Nat → Nat) :
    ∀ (st : IncState) (i : Nat),
      SlotOk env.getSlot st.pipelines ∧ SlotOk env.psGetSlot st.perSecondPipelines →
      SlotOk env.getSlot (incStep env store st i).pipelines ∧
        SlotOk env.psGetSlot (incStep env store st i).perSecondPipelines := by
  intro st i h
  simp only [incStep]
  split_ifs
  · exact h
  · exact h
  · exact ⟨h.1, appendAt_slotOk _ _ _ _ h.2 (pairCmds_key env.psGetSlot _ _ _ _ _ _ _)⟩
  · exact h
  · exact ⟨appendAt_slotOk _ _ _ _ h.1 (pairCmds_key env.getSlot _ _ _ _ _ _ _), h.2⟩

lemma getStep_slotOk (env : DoLimitEnv) :
    ∀ (st : SlotMap × SlotMap) (i : Nat),
      SlotOk env.getSlot st.1 ∧ SlotOk env.psGetSlot st.2 →
      SlotOk env.getSlot (getStep env st i).1 ∧ SlotOk env.psGetSlot (getStep env st i).2 := by
  intro st i h
  simp only [getStep]
  split_ifs
  · exact h
  · exact ⟨h.1, appendAt_slotOk _ _ _ _ h.2 (singleCmd_key env.psGetSlot _ _ _ _)⟩
  · exact ⟨appendAt_slotOk _ _ _ _ h.1 (singleCmd_key env.getSlot _ _ _ _), h.2⟩

/-- C5: every pipeline `DoLimit` ever executes — the slot-grouped increment
pipelines for both stores and the slot-grouped pre-read `GET` pipelines —
contains only commands whose key hashes (under the owning client's `GetSlot`)
to the slot the pipeline is grouped under. -/
theorem DoLimit_pipelines_slot_consistent (env : DoLimitEnv) (store : Nat → Nat) :
    SlotOk env.getSlot (buildIncrementPhase env store).pipelines ∧
    SlotOk env.psGetSlot (buildIncrementPhase env store).perSecondPipelines ∧
    SlotOk env.getSlot (buildGetPhase env).1 ∧
    SlotOk env.psGetSlot (buildGetPhase env).2 := by
  have hinc := foldl_invariant (incStep env store)
    (fun st => SlotOk env.getSlot st.pipelines ∧ SlotOk env.psGetSlot st.perSecondPipelines)
    (incStep_slotOk env store) (List.range env.cacheKeys.length)
    ⟨fun _ => [], fun _ => [], [], fun _ => 0⟩
    ⟨fun _ c hc => absurd hc (List.not_mem_nil c), fun _ c hc => absurd hc (List.not_mem_nil c)⟩
  have hget : SlotOk env.getSlot (buildGetPhase env).1 ∧
      SlotOk env.psGetSlot (buildGetPhase env).2 := by
    unfold buildGetPhase
    split
    · exact foldl_invariant (getStep env)
        (fun st => SlotOk env.getSlot st.1 ∧ SlotOk env.psGetSlot st.2)
        (getStep_slotOk env) (List.range env.cacheKeys.length)
        (fun _ => [], fun _ => [])
        ⟨fun _ c hc => absurd hc (List.not_mem_nil c),
         fun _ c hc => absurd hc (List.not_mem_nil c)⟩
    · exact ⟨fun _ c hc => absurd hc (List.not_mem_nil c),
        fun _ c hc => absurd hc (List.not_mem_nil c)⟩
  exact ⟨hinc.1, hinc.2, hget.1, hget.2⟩

/-- Witness for C5: a two-descriptor request whose keys hash to slot 3; the
command found in the increment pipeline grouped under slot 3 is for a key of
slot 3. -/
theorem DoLimit_pipelines_slot_consistent_witness :
    (fun k : String => if k = "a" then 3 else 4) "a" = 3 :=
  (DoLimit_pipelines_slot_consistent
      ⟨fun k => if k = "a" then 3 else 4, fun _ => 0, false, false, false, fun _ => false,
       [⟨"a", false⟩, ⟨"b", false⟩], [1, 1], [false, false], [false, false],
       false, false, false, fun _ => 60⟩
      (fun _ => 1)).1 3 ⟨"INCRBY", "a", 1, some 0⟩ (by decide)

/-! ## Cell-level lemmas for the Count-Min Sketch (C3, C8, C9) -/

lemma satAdd_lt (old delta : Nat) : satAdd old delta < U32 := by
  simp only [satAdd]
  split_ifs with h
  · have := U32_pos; omega
  · exact Nat.mod_lt _ U32_pos

lemma satAdd_min (old delta : Nat) (ho : old < U32) (hd : delta < U32) :
    satAdd old delta = min (old + delta) (U32 - 1) := by
  simp only [satAdd]
  rcases Nat.lt_or_ge (old + delta) U32 with hlt | hge
  · rw [Nat.mod_eq_of_lt hlt, if_neg (by omega)]
    omega
  · have hmod : (old + delta) % U32 = old + delta - U32 := by
      rw [Nat.mod_eq_sub_mod hge, Nat.mod_eq_of_lt (by omega)]
    rw [hmod, if_pos (by omega)]
    omega

lemma satAdd_ge (old delta : Nat) (ho : old < U32) : old ≤ satAdd old delta := by
  simp only [satAdd]
  split_ifs with h
  · omega
  · exact le_of_not_lt h

lemma getD_set (l : List Nat) (idx pos v : Nat) :
    (l.set idx v).getD pos 0 = if pos = idx ∧ idx < l.length then v else l.getD pos 0 := by
  by_cases hp : pos < l.length
  · have hp2 : pos < (l.set idx v).length := by rw [List.length_set]; exact hp
    rw [List.getD_eq_getElem _ _ hp2, List.getD_eq_getElem _ _ hp]
    by_cases he : pos = idx
    · subst he
      rw [if_pos ⟨rfl, hp⟩]
      exact List.getElem_set_self hp2
    · rw [if_neg (fun hc : pos = idx ∧ idx < l.length => he hc.1)]
      exact List.getElem_set_ne (fun hc => he hc.symm) hp2
  · have hp2 : (l.set idx v).length ≤ pos := by rw [List.length_set]; omega
    rw [List.getD_eq_default _ _ hp2, List.getD_eq_default _ _ (by omega)]
    rw [if_neg (fun hc : pos = idx ∧ idx < l.length => hp (hc.1 ▸ hc.2))]

lemma getD_replicate_zero : ∀ (w j2 : Nat), (List.replicate w (0 : Nat)).getD j2 0 = 0 := by
  intro w
  induction w with
  | zero => intro j2; rfl
  | succ n ih =>
    intro j2
    cases j2 with
    | zero => rfl
    | succ p => simpa [List.replicate] using ih p

lemma getD_zeros : ∀ (dep w j j2 : Nat),
    ((List.replicate dep (List.replicate w (0 : Nat))).getD j []).getD j2 0 = 0 := by
  intro dep
  induction dep with
  | zero => intro w j j2; rfl
  | succ n ih =>
    intro w j j2
    cases j with
    | zero => simpa [List.replicate] using getD_replicate_zero w j2
    | succ p => simpa [List.replicate] using ih w p j2

lemma replicate_getD_lt {α : Type} : ∀ (n : Nat) (a dflt : α) (j : Nat), j < n →
    (List.replicate n a).getD j dflt = a := by
  intro n
  induction n with
  | zero => intro a dflt j hj; omega
  | succ m ih =>
    intro a dflt j hj
    cases j with
    | zero => rfl
    | succ p => simpa [List.replicate] using ih a dflt p (by omega)

lemma incRows_length (h : Nat → String → Nat) (key : String) (delta : Nat) :
    ∀ (rows : List (List Nat)) (i0 : Nat),
      ((incRows h key delta i0 rows).1).length = rows.length := by
  intro rows
  induction rows with
  | nil => intro i0; rfl
  | cons row rest ih => intro i0; simpa [incRows] using ih (i0 + 1)

lemma incRows_cells (h : Nat → String → Nat) (key : String) (delta : Nat) :
    ∀ (rows : List (List Nat)) (i0 j : Nat), j < rows.length →
      ((incRows h key delta i0 rows).1).getD j [] =
        (rows.getD j []).set (h (i0 + j) key)
          (satAdd ((rows.getD j []).getD (h (i0 + j) key) 0) delta) := by
  intro rows
  induction rows with
  | nil => intro i0 j hj; simp at hj
  | cons row rest ih =>
    intro i0 j hj
    cases j with
    | zero => simp [incRows]
    | succ p =>
      have hp : p < rest.length := by simpa using hj
      have h2 := ih (i0 + 1) p hp
      have harith : i0 + 1 + p = i0 + (p + 1) := by omega
      rw [harith] at h2
      simpa [incRows] using h2

lemma incRows_ret_le (h : Nat → String → Nat) (key : String) (delta : Nat) :
    ∀ (rows : List (List Nat)) (i0 j : Nat), j < rows.length →
      (incRows h key delta i0 rows).2 ≤
        satAdd ((rows.getD j []).getD (h (i0 + j) key) 0) delta := by
  intro rows
  induction rows with
  | nil => intro i0 j hj; simp at hj
  | cons row rest ih =>
    intro i0 j hj
    cases j with
    | zero => simpa [incRows] using min_le_left _ _
    | succ p =>
      have hp : p < rest.length := by simpa using hj
      have h2 := ih (i0 + 1) p hp
      have harith : i0 + 1 + p = i0 + (p + 1) := by omega
      rw [harith] at h2
      have h3 : (incRows h key delta i0 (row :: rest)).2 ≤
          (incRows h key delta (i0 + 1) rest).2 := by
        simpa [incRows] using min_le_right _ _
      exact le_trans h3 (by simpa using h2)

lemma incRows_ret_mem (h : Nat → String → Nat) (key : String) (delta : Nat) :
    ∀ (rows : List (List Nat)) (i0 : Nat), rows ≠ [] →
      ∃ j, j < rows.length ∧
        (incRows h key delta i0 rows).2 =
          satAdd ((rows.getD j []).getD (h (i0 + j) key) 0) delta := by
  intro rows
  induction rows with
  | nil => intro i0 hne; exact absurd rfl hne
  | cons row rest ih =>
    intro i0 _
    cases rest with
    | nil =>
      refine ⟨0, by simp, ?_⟩
      have hlt : satAdd (row.getD (h i0 key) 0) delta ≤ U32 - 1 := by
        have := satAdd_lt (row.getD (h i0 key) 0) delta
        omega
      show min (satAdd (row.getD (h i0 key) 0) delta) (U32 - 1) =
        satAdd (row.getD (h i0 key) 0) delta
      exact min_eq_left hlt
    | cons r2 rrest =>
      rcases min_choice (satAdd (row.getD (h i0 key) 0) delta)
          ((incRows h key delta (i0 + 1) (r2 :: rrest)).2) with hm | hm
      · exact ⟨0, by simp, hm⟩
      · obtain ⟨j, hj, hjeq⟩ := ih (i0 + 1) (by simp)
        refine ⟨j + 1, by simpa using Nat.succ_lt_succ hj, ?_⟩
        have harith : i0 + 1 + j = i0 + (j + 1) := by omega
        rw [harith] at hjeq
        have hres : (incRows h key delta i0 (row :: r2 :: rrest)).2 =
            (incRows h key delta (i0 + 1) (r2 :: rrest)).2 := hm
        rw [hres, hjeq]
        simp

lemma Increment_counters (cms : CountMinSketch) (key : String) (delta : Nat) :
    (cms.Increment key delta).1.counters = (incRows cms.hashIdx key delta 0 cms.counters).1 :=
  rfl

lemma WF_new (m d : Int) (h : Nat → String → Nat)
    (hh : ∀ i k, h i k < (NewCountMinSketch m d h).width) : WF (NewCountMinSketch m d h) := by
  refine ⟨?_, ?_, hh⟩
  · intro j hj
    have hj2 : j < (clampDepth d).toNat := by
      simpa [NewCountMinSketch] using hj
    show ((List.replicate (clampDepth d).toNat
        (List.replicate (NewCountMinSketch m d h).width 0)).getD j []).length =
      (NewCountMinSketch m d h).width
    rw [replicate_getD_lt _ _ _ j hj2, List.length_replicate]
  · intro j j2
    have : ((List.replicate (clampDepth d).toNat
        (List.replicate (NewCountMinSketch m d h).width 0)).getD j []).getD j2 0 = 0 :=
      getD_zeros _ _ j j2
    show ((List.replicate (clampDepth d).toNat
        (List.replicate (NewCountMinSketch m d h).width 0)).getD j []).getD j2 0 < U32
    rw [this]
    exact U32_pos

lemma WF_increment (cms : CountMinSketch) (key : String) (delta : Nat) (hwf : WF cms) :
    WF (cms.Increment key delta).1 := by
  refine ⟨?_, ?_, hwf.2.2⟩
  · intro j hj
    have hj2 : j < cms.counters.length := by
      rw [Increment_counters, incRows_length] at hj
      exact hj
    rw [Increment_counters, incRows_cells _ _ _ _ 0 j hj2, List.length_set]
    exact hwf.1 j hj2
  · intro j j2
    by_cases hj : j < cms.counters.length
    · rw [Increment_counters, incRows_cells _ _ _ _ 0 j hj, getD_set]
      split_ifs with hif
      · exact satAdd_lt _ _
      · exact hwf.2.1 j j2
    · have hlen : (incRows cms.hashIdx key delta 0 cms.counters).1.length ≤ j := by
        rw [incRows_length]; omega
      rw [Increment_counters, List.getD_eq_default _ _ hlen]
      show ([] : List Nat).getD j2 0 < U32
      exact U32_pos

lemma increment_cell (cms : CountMinSketch) (key : String) (delta : Nat) (hwf : WF cms)
    (j : Nat) (hj : j < cms.counters.length) :
    ((cms.Increment key delta).1.counters.getD j []).getD (cms.hashIdx j key) 0 =
      satAdd ((cms.counters.getD j []).getD (cms.hashIdx j key) 0) delta := by
  have hc := incRows_cells cms.hashIdx key delta cms.counters 0 j hj
  rw [Nat.zero_add] at hc
  have hin : cms.hashIdx j key < (cms.counters.getD j []).length := by
    rw [hwf.1 j hj]
    exact hwf.2.2 j key
  rw [Increment_counters, hc, getD_set, if_pos ⟨rfl, hin⟩]

lemma increment_ret_le (cms : CountMinSketch) (key : String) (delta : Nat) (hwf : WF cms)
    (j : Nat) (hj : j < cms.counters.length) :
    (cms.Increment key delta).2 ≤
      ((cms.Increment key delta).1.counters.getD j []).getD (cms.hashIdx j key) 0 := by
  rw [increment_cell cms key delta hwf j hj]
  have := incRows_ret_le cms.hashIdx key delta cms.counters 0 j hj
  rw [Nat.zero_add] at this
  exact this

lemma increment_ret_mem (cms : CountMinSketch) (key : String) (delta : Nat) (hwf : WF cms)
    (hne : cms.counters ≠ []) :
    ∃ j, j < cms.counters.length ∧
      (cms.Increment key delta).2 =
        ((cms.Increment key delta).1.counters.getD j []).getD (cms.hashIdx j key) 0 := by
  obtain ⟨j, hj, hjeq⟩ := incRows_ret_mem cms.hashIdx key delta cms.counters 0 hne
  rw [Nat.zero_add] at hjeq
  exact ⟨j, hj, by rw [increment_cell cms key delta hwf j hj]; exact hjeq⟩

lemma estRows_ge (h : Nat → String → Nat) (key : String) (B : Nat) :
    ∀ (rows : List (List Nat)) (i0 : Nat), B ≤ U32 - 1 →
      (∀ j, j < rows.length → B ≤ (rows.getD j []).getD (h (i0 + j) key) 0) →
      B ≤ estRows h key i0 rows := by
  intro rows
  induction rows with
  | nil => intro i0 hB _; exact hB
  | cons row rest ih =>
    intro i0 hB hcell
    show B ≤ min (row.getD (h i0 key) 0) (estRows h key (i0 + 1) rest)
    refine le_min ?_ ?_
    · have := hcell 0 (by simp)
      simpa using this
    · refine ih (i0 + 1) hB ?_
      intro j hj
      have := hcell (j + 1) (by simpa using Nat.succ_lt_succ hj)
      have harith : i0 + (j + 1) = i0 + 1 + j := by omega
      rw [harith] at this
      exact this

lemma trueCount_cons (key k1 : String) (delta : Nat) (rest : List (String × Nat)) :
    trueCount key ((k1, delta) :: rest) =
      (if k1 = key then delta else 0) + trueCount key rest := by
  unfold trueCount
  by_cases hk : k1 = key
  · simp [List.filter_cons, hk]
  · simp [List.filter_cons, hk]

lemma cells_lower_bound (key : String) :
    ∀ (ops : List (String × Nat)) (s : CountMinSketch) (S : Nat),
      WF s → (∀ p ∈ ops, p.2 < U32) →
      (∀ j, j < s.counters.length →
        min S (U32 - 1) ≤ (s.counters.getD j []).getD (s.hashIdx j key) 0) →
      (runIncrements s ops).hashIdx = s.hashIdx ∧
      (runIncrements s ops).counters.length = s.counters.length ∧
      WF (runIncrements s ops) ∧
      (∀ j, j < (runIncrements s ops).counters.length →
        min (S + trueCount key ops) (U32 - 1) ≤
          ((runIncrements s ops).counters.getD j []).getD (s.hashIdx j key) 0) := by
  intro ops
  induction ops with
  | nil =>
    intro s S hwf _ hcells
    refine ⟨rfl, rfl, hwf, ?_⟩
    intro j hj
    have h0 : trueCount key [] = 0 := rfl
    rw [h0, Nat.add_zero]
    exact hcells j hj
  | cons p rest ih =>
    intro s S hwf hdelta hcells
    obtain ⟨k1, delta⟩ := p
    have hd1 : delta < U32 := hdelta (k1, delta) (List.mem_cons_self _ _)
    have hd2 : ∀ q ∈ rest, q.2 < U32 := fun q hq => hdelta q (List.mem_cons_of_mem _ hq)
    have hwf1 : WF (s.Increment k1 delta).1 := WF_increment s k1 delta hwf
    have hlen1 : (s.Increment k1 delta).1.counters.length = s.counters.length := by
      rw [Increment_counters, incRows_length]
    have hhash1 : (s.Increment k1 delta).1.hashIdx = s.hashIdx := rfl
    have hcells1 : ∀ j, j < (s.Increment k1 delta).1.counters.length →
        min (S + (if k1 = key then delta else 0)) (U32 - 1) ≤
          ((s.Increment k1 delta).1.counters.getD j []).getD
            ((s.Increment k1 delta).1.hashIdx j key) 0 := by
      intro j hj
      have hj2 : j < s.counters.length := by rwa [hlen1] at hj
      have hc := incRows_cells s.hashIdx k1 delta s.counters 0 j hj2
      rw [Nat.zero_add] at hc
      have hold : (s.counters.getD j []).getD (s.hashIdx j key) 0 < U32 := hwf.2.1 j _
      have hbase := hcells j hj2
      rw [hhash1, Increment_counters, hc, getD_set]
      by_cases hk : k1 = key
      · subst hk
        have hin : s.hashIdx j k1 < (s.counters.getD j []).length := by
          rw [hwf.1 j hj2]
          exact hwf.2.2 j k1
        rw [if_pos (show s.hashIdx j k1 = s.hashIdx j k1 ∧
              s.hashIdx j k1 < (s.counters.getD j []).length from ⟨rfl, hin⟩),
            satAdd_min _ _ hold hd1]
        simp only [if_pos rfl, if_true]
        omega
      · rw [if_neg hk]
        split_ifs with hif
        · obtain ⟨hpos, hin⟩ := hif
          rw [hpos] at hbase hold
          have := satAdd_ge ((s.counters.getD j []).getD (s.hashIdx j k1) 0) delta hold
          omega
        · omega
    obtain ⟨ha, hb, hwf2, hbound⟩ :=
      ih (s.Increment k1 delta).1 (S + (if k1 = key then delta else 0)) hwf1 hd2 hcells1
    have hrun : runIncrements s ((k1, delta) :: rest) =
        runIncrements (s.Increment k1 delta).1 rest := rfl
    refine ⟨?_, ?_, ?_, ?_⟩
    · rw [hrun, ha, hhash1]
    · rw [hrun, hb, hlen1]
    · rw [hrun]; exact hwf2
    · intro j hj
      rw [hrun] at hj ⊢
      have := hbound j hj
      rw [hhash1] at this
      have harg : S + trueCount key ((k1, delta) :: rest) =
          S + (if k1 = key then delta else 0) + trueCount key rest := by
        rw [trueCount_cons]
        omega
      rw [harg]
      exact this

/-- C3 (counterexample to the claim as stated): the `uint32` cells saturate at
`0xFFFFFFFF`, so two increments of `0xFFFFFFFF` on the same key leave the
estimate strictly below the true count — the sketch can under-count once a
counter saturates. -/
theorem sketch_undercount_cex :
    (runIncrements (NewCountMinSketch 0 2 (fun _ _ => 0))
        [("a", U32 - 1), ("a", U32 - 1)]).Estimate "a" <
      trueCount "a" [("a", U32 - 1), ("a", U32 - 1)] := by decide

/-- C3 (amended): for any sequence of increments with `uint32` deltas and no
intervening decay or reset, the estimate never under-counts up to counter
saturation — `Estimate(k) ≥ min(true_count(k), 2^32 - 1)` — and on any
well-formed sketch the value returned by `Increment` is the minimum over the
`depth` updated cells. -/
theorem sketch_estimate_no_undercount (m d : Int) (h : Nat → String → Nat)
    (ops : List (String × Nat)) (key : String)
    (hh : ∀ i k, h i k < (NewCountMinSketch m d h).width)
    (hdelta : ∀ p ∈ ops, p.2 < U32) :
    min (trueCount key ops) (U32 - 1) ≤
      (runIncrements (NewCountMinSketch m d h) ops).Estimate key ∧
    (∀ (cms : CountMinSketch) (key2 : String) (delta : Nat), WF cms →
      (∀ j, j < cms.counters.length →
        (cms.Increment key2 delta).2 ≤
          ((cms.Increment key2 delta).1.counters.getD j []).getD (cms.hashIdx j key2) 0) ∧
      (cms.counters ≠ [] → ∃ j, j < cms.counters.length ∧
        (cms.Increment key2 delta).2 =
          ((cms.Increment key2 delta).1.counters.getD j []).getD (cms.hashIdx j key2) 0)) := by
  constructor
  · have hwf0 := WF_new m d h hh
    have hcells0 : ∀ j, j < (NewCountMinSketch m d h).counters.length →
        min 0 (U32 - 1) ≤
          ((NewCountMinSketch m d h).counters.getD j []).getD
            ((NewCountMinSketch m d h).hashIdx j key) 0 := by
      intro j hj
      omega
    obtain ⟨ha, hb, hwf2, hbound⟩ :=
      cells_lower_bound key ops (NewCountMinSketch m d h) 0 hwf0 hdelta hcells0
    show min (trueCount key ops) (U32 - 1) ≤
      estRows (runIncrements (NewCountMinSketch m d h) ops).hashIdx key 0
        (runIncrements (NewCountMinSketch m d h) ops).counters
    rw [ha]
    refine estRows_ge (NewCountMinSketch m d h).hashIdx key _ _ 0 (min_le_right _ _) ?_
    intro j hj
    rw [Nat.zero_add]
    have hbb := hbound j hj
    rw [Nat.zero_add] at hbb
    exact hbb
  · intro cms key2 delta hwf
    exact ⟨fun j hj => increment_ret_le cms key2 delta hwf j hj,
      fun hne => increment_ret_mem cms key2 delta hwf hne⟩

/-- Witness for the amended C3: a single increment of 3 on a fresh sketch
leaves an estimate of at least 3. -/
theorem sketch_estimate_no_undercount_witness :
    min (trueCount "a" [("a", 3)]) (U32 - 1) ≤
      (runIncrements (NewCountMinSketch 0 2 (fun _ _ => 0)) [("a", 3)]).Estimate "a" :=
  (sketch_estimate_no_undercount 0 2 (fun _ _ => 0) [("a", 3)] "a"
      (fun i k => (by decide : (0 : Nat) < (NewCountMinSketch 0 2 (fun _ _ => 0)).width))
      (by decide)).1

/-- C8: on a well-formed sketch, `Increment` saturates instead of wrapping:
each of the `depth` selected cells becomes `min(oldValue + delta, 2^32 - 1)`,
and the returned value is the new minimum across those cells. -/
theorem Increment_saturates (cms : CountMinSketch) (key : String) (delta : Nat)
    (hwf : WF cms) (hdelta : delta < U32) :
    (∀ j, j < cms.counters.length →
      ((cms.Increment key delta).1.counters.getD j []).getD (cms.hashIdx j key) 0 =
        min ((cms.counters.getD j []).getD (cms.hashIdx j key) 0 + delta) (U32 - 1)) ∧
    (∀ j, j < cms.counters.length →
      (cms.Increment key delta).2 ≤
        ((cms.Increment key delta).1.counters.getD j []).getD (cms.hashIdx j key) 0) ∧
    (cms.counters ≠ [] → ∃ j, j < cms.counters.length ∧
      (cms.Increment key delta).2 =
        ((cms.Increment key delta).1.counters.getD j []).getD (cms.hashIdx j key) 0) := by
  refine ⟨?_, fun j hj => increment_ret_le cms key delta hwf j hj,
    fun hne => increment_ret_mem cms key delta hwf hne⟩
  intro j hj
  rw [increment_cell cms key delta hwf j hj, satAdd_min _ _ (hwf.2.1 j _) hdelta]

/-- Witness for C8: incrementing a fresh sketch by 5 sets the row-0 selected
cell to `min(0 + 5, 2^32 - 1)`. -/
theorem Increment_saturates_witness :
    (((NewCountMinSketch 0 2 (fun _ _ => 0)).Increment "k" 5).1.counters.getD 0 []).getD
        ((NewCountMinSketch 0 2 (fun _ _ => 0)).hashIdx 0 "k") 0 =
      min (((NewCountMinSketch 0 2 (fun _ _ => 0)).counters.getD 0 []).getD
        ((NewCountMinSketch 0 2 (fun _ _ => 0)).hashIdx 0 "k") 0 + 5) (U32 - 1) :=
  (Increment_saturates (NewCountMinSketch 0 2 (fun _ _ => 0)) "k" 5
      (WF_new 0 2 (fun _ _ => 0)
        (fun i k => (by decide : (0 : Nat) < (NewCountMinSketch 0 2 (fun _ _ => 0)).width)))
      (by decide)).1 0 (by decide)

/-- C9 (counterexample to the claim as stated): for a negative memory budget
the Go conversion `uint32(memoryBytes / (depth * 4))` wraps modulo `2^32`, so
the constructed width is `2^32 - 64`, not `max(256, memoryBytes / (depth*4))`. -/
theorem NewCountMinSketch_width_cex :
    (NewCountMinSketch (-1024) 4 (fun _ _ => 0)).width = 4294967232 ∧
    (NewCountMinSketch (-1024) 4 (fun _ _ => 0)).width ≠
      max 256 (Int.tdiv (-1024) (clampDepth 4 * 4)).toNat :=
  ⟨by decide, by decide⟩

/-- C9 (amended): for a nonnegative memory budget whose derived quotient fits
in `uint32`, the constructor clamps `depth` into `[2, 8]` first and then sets
`width = max(256, memoryBytes / (clampedDepth * 4))` with truncating integer
division; the sketch has `clampedDepth` rows of `width` cells. -/
theorem NewCountMinSketch_dims (m d : Int) (h : Nat → String → Nat)
    (hm : 0 ≤ m) (hsmall : Int.tdiv m (clampDepth d * 4) < (2 : Int) ^ 32) :
    2 ≤ clampDepth d ∧ clampDepth d ≤ 8 ∧
    (NewCountMinSketch m d h).counters.length = (clampDepth d).toNat ∧
    (NewCountMinSketch m d h).width = max 256 (Int.tdiv m (clampDepth d * 4)).toNat ∧
    ∀ j, j < (NewCountMinSketch m d h).counters.length →
      ((NewCountMinSketch m d h).counters.getD j []).length =
        (NewCountMinSketch m d h).width := by
  have hcd : 2 ≤ clampDepth d ∧ clampDepth d ≤ 8 := by
    simp only [clampDepth]
    split_ifs <;> omega
  have hq0 : 0 ≤ Int.tdiv m (clampDepth d * 4) := Int.tdiv_nonneg hm (by omega)
  refine ⟨hcd.1, hcd.2, ?_, ?_, ?_⟩
  · simp only [NewCountMinSketch]
    exact List.length_replicate _ _
  · simp only [NewCountMinSketch]
    rw [show Int.emod (Int.tdiv m (clampDepth d * 4)) ((2 : Int) ^ 32) =
        Int.tdiv m (clampDepth d * 4) from Int.emod_eq_of_lt hq0 hsmall]
    split_ifs with hw <;> omega
  · intro j hj
    simp only [NewCountMinSketch] at hj ⊢
    rw [replicate_getD_lt _ _ _ j (by simpa using hj), List.length_replicate]

/-- Witness for the amended C9: a 1 MiB budget at depth 4 yields width
`max(256, 1048576 / 16) = 65536`. -/
theorem NewCountMinSketch_dims_witness :
    (NewCountMinSketch 1048576 4 (fun _ _ => 0)).width =
      max 256 (Int.tdiv 1048576 (clampDepth 4 * 4)).toNat :=
  (NewCountMinSketch_dims 1048576 4 (fun _ _ => 0) (by decide) (by decide)).2.2.2.1

/-! ## Hot-key set invariants (C4) -/

lemma evictLoop_le (M : Nat) (hM : 1 ≤ M) :
    ∀ l : List String, (evictLoop M l).length ≤ M - 1 := by
  intro l
  induction l with
  | nil =>
    show ([] : List String).length ≤ M - 1
    simp
  | cons k rest ih =>
    simp only [evictLoop]
    split_ifs with h
    · exact ih
    · simp only [List.length_cons] at h ⊢
      omega

lemma evictLoop_of_lt (M : Nat) : ∀ l : List String, l.length < M → evictLoop M l = l := by
  intro l hl
  cases l with
  | nil => rfl
  | cons k rest =>
    simp only [evictLoop]
    rw [if_neg (not_le.mpr hl)]

lemma evictLoop_full (M : Nat) (hM : 1 ≤ M) :
    ∀ l : List String, l.length = M → evictLoop M l = l.tail := by
  intro l hl
  cases l with
  | nil => simp at hl; omega
  | cons k rest =>
    simp only [evictLoop]
    rw [if_pos (by simp only [List.length_cons] at hl ⊢; omega)]
    show evictLoop M rest = rest
    exact evictLoop_of_lt M rest (by simp only [List.length_cons] at hl; omega)

lemma promoteToHot_max (d : HotKeyDetector) (key : String) :
    (d.promoteToHot key).maxHotKeys = d.maxHotKeys := by
  simp only [HotKeyDetector.promoteToHot]
  split_ifs <;> rfl

lemma applyOp_bound (M : Nat) (hM : 1 ≤ M) :
    ∀ (st : HotKeyDetector) (op : DetectorOp), st.maxHotKeys = M →
      st.hotKeysList.length ≤ M →
      (applyOp st op).maxHotKeys = M ∧ (applyOp st op).hotKeysList.length ≤ M := by
  intro st op hmax hlen
  cases op with
  | decayCleanup g =>
    refine ⟨hmax, ?_⟩
    show (st.hotKeysList.filter _).length ≤ M
    exact le_trans (List.length_filter_le _ _) hlen
  | record k delta =>
    simp only [applyOp, HotKeyDetector.RecordAccessWithDelta]
    split_ifs with h1 h2
    · refine ⟨hmax, ?_⟩
      show (st.hotKeysList.erase k ++ [k]).length ≤ M
      rw [List.length_append, List.length_erase]
      have hmem : k ∈ st.hotKeysList := h1
      have hpos : 1 ≤ st.hotKeysList.length := List.length_pos.mpr (by
        intro hemp
        rw [hemp] at hmem
        exact absurd hmem (List.not_mem_nil k))
      rw [if_pos hmem]
      simp only [List.length_cons, List.length_nil]
      omega
    · refine ⟨?_, ?_⟩
      · show (HotKeyDetector.promoteToHot _ k).maxHotKeys = M
        rw [promoteToHot_max]
        exact hmax
      show ((HotKeyDetector.promoteToHot _ k).hotKeysList).length ≤ M
      simp only [HotKeyDetector.promoteToHot]
      rw [if_neg h1]
      show (evictLoop (st.maxHotKeys) st.hotKeysList ++ [k]).length ≤ M
      rw [List.length_append, hmax]
      have := evictLoop_le M hM st.hotKeysList
      simp only [List.length_cons, List.length_nil]
      omega
    · exact ⟨hmax, hlen⟩

/-- C4: the hot-key set invariants of the detector.  (a) Starting from any
state within capacity, any sequence of recorded accesses and decay-cleanups
keeps `|H| ≤ maxHotKeys`.  (b) A key not yet hot is inserted (and reported
hot) exactly when the sketch count returned by its increment reaches
`hotThreshold`.  (c) When the set is at capacity, promotion evicts the
LRU-oldest key (the head of the LRU list).  (d) Cleanup after a decay keeps a
tracked key iff its decayed estimate is still at least `hotThreshold`. -/
theorem hotKeySet_invariants :
    (∀ (d : HotKeyDetector) (ops : List DetectorOp), 1 ≤ d.maxHotKeys →
      d.hotKeysList.length ≤ d.maxHotKeys →
      (applyOps d ops).hotKeysList.length ≤ d.maxHotKeys) ∧
    (∀ (d : HotKeyDetector) (key : String) (delta : Nat), key ∉ d.hotKeysList →
      d.hotThreshold ≤ (d.cms.Increment key delta).2 →
      key ∈ (d.RecordAccessWithDelta key delta).1.hotKeysList ∧
        (d.RecordAccessWithDelta key delta).2 = true) ∧
    (∀ (d : HotKeyDetector) (key : String), key ∉ d.hotKeysList → 1 ≤ d.maxHotKeys →
      d.hotKeysList.length = d.maxHotKeys →
      (d.promoteToHot key).hotKeysList = d.hotKeysList.tail ++ [key]) ∧
    (∀ (d : HotKeyDetector) (g : Nat → Nat) (key : String),
      key ∈ (applyOp d (.decayCleanup g)).hotKeysList ↔
        key ∈ d.hotKeysList ∧
          d.hotThreshold ≤ (d.cms.DecayWith g).Estimate key) := by
  refine ⟨?_, ?_, ?_, ?_⟩
  · intro d ops hM hlen
    have := foldl_invariant applyOp
      (fun st => st.maxHotKeys = d.maxHotKeys ∧ st.hotKeysList.length ≤ d.maxHotKeys)
      (fun st op hst => applyOp_bound d.maxHotKeys hM st op hst.1 hst.2)
      ops d ⟨rfl, hlen⟩
    exact this.2
  · intro d key delta hmem hthr
    simp only [HotKeyDetector.RecordAccessWithDelta]
    rw [if_neg hmem, if_pos hthr]
    refine ⟨?_, rfl⟩
    simp only [HotKeyDetector.promoteToHot]
    rw [if_neg hmem]
    exact List.mem_append_right _ (List.mem_singleton.mpr rfl)
  · intro d key hmem hM hfull
    simp only [HotKeyDetector.promoteToHot]
    rw [if_neg hmem, evictLoop_full d.maxHotKeys hM d.hotKeysList hfull]
  · intro d g key
    simp only [applyOp, HotKeyDetector.cleanupColdKeys, List.mem_filter,
      decide_eq_true_eq]

/-- Witness for C4: a fresh two-slot detector; recording one access with
delta 3 (at threshold 2) stays within capacity; promotion of a new key into a
full list evicts the head; a key with estimate 0 survives no cleanup. -/
theorem hotKeySet_invariants_witness :
    (applyOps ⟨NewCountMinSketch 0 2 (fun _ _ => 0), 2, [], 2⟩
        [.record "a" 3]).hotKeysList.length ≤ 2 ∧
    "a" ∈ ((⟨NewCountMinSketch 0 2 (fun _ _ => 0), 2, [], 2⟩ :
        HotKeyDetector).RecordAccessWithDelta "a" 3).1.hotKeysList ∧
    ((⟨NewCountMinSketch 0 2 (fun _ _ => 0), 2, ["x", "y"], 2⟩ :
        HotKeyDetector).promoteToHot "z").hotKeysList = ["x", "y"].tail ++ ["z"] ∧
    ¬("x" ∈ (applyOp ⟨NewCountMinSketch 0 2 (fun _ _ => 0), 2, ["x"], 2⟩
        (.decayCleanup id)).hotKeysList) := by
  refine ⟨?_, ?_, ?_, ?_⟩
  · exact hotKeySet_invariants.1 ⟨NewCountMinSketch 0 2 (fun _ _ => 0), 2, [], 2⟩
      [.record "a" 3] (by decide) (by decide)
  · exact (hotKeySet_invariants.2.1 ⟨NewCountMinSketch 0 2 (fun _ _ => 0), 2, [], 2⟩
      "a" 3 (by decide) (by decide)).1
  · exact hotKeySet_invariants.2.2.1 ⟨NewCountMinSketch 0 2 (fun _ _ => 0), 2, ["x", "y"], 2⟩
      "z" (by decide) (by decide) (by decide)
  · intro hmem
    have := (hotKeySet_invariants.2.2.2 ⟨NewCountMinSketch 0 2 (fun _ _ => 0), 2, ["x"], 2⟩
      id "x").mp hmem
    exact absurd this.2 (by decide)

end Ratelimit
